import Mathlib

/-!
Shallow embedding of the dictionary-record parsing, grouping and
copy-selection logic of `src/popup.ts`.

Both `renderWordEntries` and `renderNamesEntries` parse each raw record
with the regular expression `^(.+?)\s+(?:\[(.*?)\])?\s*\/(.+)\//` and
group consecutive records into display entries.  The matcher below
implements that regular expression with JavaScript backtracking
semantics: the lazy `(.+?)` tries shorter captures first, the greedy
`\s+`, `\s*` and `(.+)` try longer matches first, and the optional
group `(?:\[(.*?)\])?` tries the group-present alternative before the
group-absent one.
-/

/-- The JavaScript `\s` character class. -/
def isSpace (c : Char) : Bool :=
  c = ' ' || c = '\t' || c = '\n' || c = '\r' || c = '\x0b' || c = '\x0c' ||
  c = '\u00a0' || c = '\u1680' ||
  (decide (0x2000 ≤ c.toNat) && decide (c.toNat ≤ 0x200a)) ||
  c = '\u2028' || c = '\u2029' || c = '\u202f' || c = '\u205f' ||
  c = '\u3000' || c = '\ufeff'

/-- The JavaScript `.` (no dotall flag): any character except a line
terminator. -/
def isDot (c : Char) : Bool :=
  !(c = '\n' || c = '\r' || c = '\u2028' || c = '\u2029')

/-- All ways the lazy `(.+?)` can split the input into a non-empty
capture and a remainder, shortest capture first. -/
def lazyPlusSplits : List Char → List (List Char × List Char)
  | [] => []
  | c :: rest =>
    if isDot c then
      ([c], rest) :: (lazyPlusSplits rest).map (fun pr => (c :: pr.1, pr.2))
    else []

/-- Length of the maximal whitespace run at the head of the input. -/
def spaceRunLen : List Char → Nat
  | [] => 0
  | c :: rest => if isSpace c then spaceRunLen rest + 1 else 0

/-- Remaining inputs after `\s+`, in greedy (longest-run-first) order. -/
def spacesPlusRests (s : List Char) : List (List Char) :=
  (List.range (spaceRunLen s)).map (fun k => s.drop (spaceRunLen s - k))

/-- Remaining inputs after `\s*`, in greedy (longest-run-first) order. -/
def spacesStarRests (s : List Char) : List (List Char) :=
  (List.range (spaceRunLen s + 1)).map (fun k => s.drop (spaceRunLen s - k))

/-- All ways the lazy `(.*?)\]` can split the input into a capture and
the remainder after the closing bracket, shortest capture first. -/
def lazyCloseSplits : List Char → List (List Char × List Char)
  | [] => []
  | c :: rest =>
    (if c = ']' then [(([] : List Char), rest)] else []) ++
      (if isDot c then
        (lazyCloseSplits rest).map (fun pr => (c :: pr.1, pr.2))
      else [])

/-- Alternatives for the optional group `(?:\[(.*?)\])?`: the
group-present splits (lazy order) first, then the group-absent case. -/
def bracketAlts (s : List Char) : List (Option (List Char) × List Char) :=
  (match s with
   | '[' :: rest => (lazyCloseSplits rest).map (fun pr => (some pr.1, pr.2))
   | _ => []) ++ [(none, s)]

/-- All ways `(.+)\/` can split the input into a non-empty capture, the
consumed slash and a remainder, shortest capture first; the greedy
engine prefers the last element. -/
def plusSlashAsc : List Char → List (List Char × List Char)
  | [] => []
  | c :: rest =>
    if isDot c then
      (match rest with
       | '/' :: r => [([c], r)]
       | _ => []) ++ (plusSlashAsc rest).map (fun pr => (c :: pr.1, pr.2))
    else []

/-- Final stage of the regex: the literal `/` followed by the greedy
`(.+)\/`; nothing follows, so the longest split wins. -/
def matchTail (hw : List Char) (rd : Option (List Char)) :
    List Char → Option (List Char × Option (List Char) × List Char)
  | '/' :: s => (plusSlashAsc s).getLast?.map (fun pr => (hw, rd, pr.1))
  | _ => none

/-- Backtracking matcher for `^(.+?)\s+(?:\[(.*?)\])?\s*\/(.+)\//`,
returning the three capture groups (headword, optional reading, gloss). -/
def matchRecordAux (s : List Char) :
    Option (List Char × Option (List Char) × List Char) :=
  (lazyPlusSplits s).findSome? fun hw =>
    (spacesPlusRests hw.2).findSome? fun s2 =>
      (bracketAlts s2).findSome? fun rd =>
        (spacesStarRests rd.2).findSome? fun s4 =>
          matchTail hw.1 rd.1 s4

/-- `dictEntry.match(/^(.+?)\s+(?:\[(.*?)\])?\s*\/(.+)\//)` followed by
`matches.slice(1)`. -/
def matchRecord (s : String) : Option (String × Option String × String) :=
  (matchRecordAux s.data).map fun m =>
    (String.mk m.1, (m.2.1).map String.mk, String.mk m.2.2)

/-- `if (kana) { entry.kana.push(kana); }`: both an undefined capture and
an empty capture are falsy in JavaScript, so neither is appended. -/
def pushKana (ks : List String) (kana : Option String) : List String :=
  match kana with
  | some k => if k = "" then ks else ks ++ [k]
  | none => ks

/-- The `DisplayEntry` record built by `renderWordEntries`. -/
structure WordDisplayEntry where
  kanjiKana : String
  kana : List String
  definition : String
  reason : Option String
deriving DecidableEq, Repr

/-- One iteration of the grouping loop in `renderWordEntries`: parse the
record, skip on no match, merge with the previous entry when both the
headword and the definition match, otherwise append a new entry. -/
def wordStep (entries : List WordDisplayEntry) (dictEntry : String)
    (reason : Option String) : List WordDisplayEntry :=
  match matchRecord dictEntry with
  | none => entries
  | some (kanjiKana, kana, definition) =>
    match entries.getLast? with
    | some prevEntry =>
      if prevEntry.kanjiKana = kanjiKana ∧ prevEntry.definition = definition then
        entries.dropLast ++
          [{ prevEntry with kana := pushKana prevEntry.kana kana }]
      else
        entries ++ [⟨kanjiKana, pushKana [] kana, definition, reason⟩]
    | none =>
      entries ++ [⟨kanjiKana, pushKana [] kana, definition, reason⟩]

/-- The grouped entry list built by `renderWordEntries` from
`result.data` (a list of record/reason pairs). -/
def renderWordEntries (data : List (String × Option String)) :
    List WordDisplayEntry :=
  data.foldl (fun es p => wordStep es p.1 p.2) []

/-- One element of the `names` list of a name display entry. -/
structure NameVariant where
  kanji : Option String
  kana : String
deriving DecidableEq, Repr

/-- The `DisplayEntry` record built by `renderNamesEntries`. -/
structure NamesDisplayEntry where
  names : List NameVariant
  definition : String
deriving DecidableEq, Repr

/-- `kana ? { kanji: kanjiKana, kana } : { kanji: undefined, kana: kanjiKana }`:
an empty captured reading is falsy, so it is treated like an absent one. -/
def nameVariantOf (kanjiKana : String) (kana : Option String) : NameVariant :=
  match kana with
  | some k => if k = "" then ⟨none, kanjiKana⟩ else ⟨some kanjiKana, k⟩
  | none => ⟨none, kanjiKana⟩

/-- Per-record parsing in `renderNamesEntries`: match the record, then
re-match the definition field once with the same regex and, when that
succeeds, use the embedded triple instead. -/
def nameParse (dictEntry : String) : Option (String × Option String × String) :=
  match matchRecord dictEntry with
  | none => none
  | some (kanjiKana, kana, definition) =>
    match matchRecord definition with
    | some m => some m
    | none => some (kanjiKana, kana, definition)

/-- One iteration of the grouping loop in `renderNamesEntries`: parse
(with the embedded-record fallback), skip on no match, merge with the
previous entry when the definitions match, otherwise append. -/
def nameStep (entries : List NamesDisplayEntry) (dictEntry : String) :
    List NamesDisplayEntry :=
  match nameParse dictEntry with
  | none => entries
  | some (kanjiKana, kana, definition) =>
    match entries.getLast? with
    | some prevEntry =>
      if prevEntry.definition = definition then
        entries.dropLast ++
          [{ prevEntry with
              names := prevEntry.names ++ [nameVariantOf kanjiKana kana] }]
      else entries ++ [⟨[nameVariantOf kanjiKana kana], definition⟩]
    | none => entries ++ [⟨[nameVariantOf kanjiKana kana], definition⟩]

/-- The grouped entry list built by `renderNamesEntries`. -/
def renderNamesEntries (data : List String) : List NamesDisplayEntry :=
  data.foldl nameStep []

/-- The name table: grouped entries plus the `-multicol` class flag
(`entries.length > 4`). -/
structure NamesRender where
  entries : List NamesDisplayEntry
  multicol : Bool
deriving DecidableEq, Repr

/-- `renderNamesEntries` including the multi-column layout decision. -/
def renderNamesTable (data : List String) : NamesRender :=
  ⟨renderNamesEntries data, decide (4 < (renderNamesEntries data).length)⟩

/-- The `PopupOptions` interface (optional fields are `Option`). -/
structure PopupOptions where
  showDefinitions : Bool
  copyMode : Option Bool := none
  copyIndex : Option Int := none
deriving DecidableEq, Repr

/-- `getSelectedIndex` from popup.ts.  `!!options.copyMode` is true only
for `some true`; the JavaScript `%` on integers is the truncated
remainder (`Int.tmod`), whose sign follows the dividend. -/
def getSelectedIndex (options : PopupOptions) (numEntries : Nat) : Int :=
  match options.copyMode, options.copyIndex with
  | some true, some i => if numEntries = 0 then -1 else Int.tmod i numEntries
  | _, _ => -1

/-! ### Helper lemmas about the matcher stages -/

/-- A character that is not whitespace is not a line terminator either. -/
theorem isDot_of_not_isSpace (c : Char) (h : isSpace c = false) :
    isDot c = true := by
  simp only [isSpace, Bool.or_eq_false_iff, decide_eq_false_iff_not] at h
  simp only [isDot, Bool.or_eq_false_iff, Bool.not_eq_true',
    decide_eq_false_iff_not]
  tauto

/-- The whitespace run of a list headed by a non-space character is empty. -/
theorem spaceRunLen_not_space {c : Char} (l : List Char)
    (h : isSpace c = false) : spaceRunLen (c :: l) = 0 := by
  simp [spaceRunLen, h]

/-- `\s+` has no alternatives on a non-space head. -/
theorem spacesPlusRests_not_space {c : Char} (l : List Char)
    (h : isSpace c = false) : spacesPlusRests (c :: l) = [] := by
  simp [spacesPlusRests, spaceRunLen_not_space _ h]

/-- `\s+` on a single space followed by a non-space character has exactly
one alternative. -/
theorem spacesPlusRests_single {c : Char} (l : List Char)
    (h : isSpace c = false) : spacesPlusRests (' ' :: c :: l) = [c :: l] := by
  have hsp : isSpace ' ' = true := by decide
  have h1 : spaceRunLen (' ' :: c :: l) = 1 := by
    simp [spaceRunLen, hsp, h]
  simp [spacesPlusRests, h1, List.range_succ]

/-- `\s*` on a single space followed by a non-space character has exactly
two alternatives, the space-consuming one first. -/
theorem spacesStarRests_single {c : Char} (l : List Char)
    (h : isSpace c = false) :
    spacesStarRests (' ' :: c :: l) = [c :: l, ' ' :: c :: l] := by
  have hsp : isSpace ' ' = true := by decide
  have h1 : spaceRunLen (' ' :: c :: l) = 1 := by
    simp [spaceRunLen, hsp, h]
  simp [spacesStarRests, h1, List.range_succ]

/-- Unfolding equation for `lazyPlusSplits` on a dot character. -/
theorem lazyPlusSplits_cons (c : Char) (l : List Char) (h : isDot c = true) :
    lazyPlusSplits (c :: l)
      = ([c], l) :: (lazyPlusSplits l).map (fun pr => (c :: pr.1, pr.2)) := by
  simp [lazyPlusSplits, h]

/-- Unfolding equation for `lazyCloseSplits` on the closing bracket. -/
theorem lazyCloseSplits_close (l : List Char) :
    lazyCloseSplits (']' :: l)
      = ([], l) :: (lazyCloseSplits l).map (fun pr => (']' :: pr.1, pr.2)) := by
  have hd : isDot ']' = true := by decide
  simp [lazyCloseSplits, hd]

/-- Unfolding equation for `lazyCloseSplits` on a non-bracket dot
character. -/
theorem lazyCloseSplits_cons_ne (c : Char) (l : List Char)
    (h1 : isDot c = true) (h2 : c ≠ ']') :
    lazyCloseSplits (c :: l)
      = (lazyCloseSplits l).map (fun pr => (c :: pr.1, pr.2)) := by
  simp [lazyCloseSplits, h1, h2]

/-- Unfolding equation for `plusSlashAsc` on a dot character. -/
theorem plusSlashAsc_cons (c : Char) (l : List Char) (h : isDot c = true) :
    plusSlashAsc (c :: l)
      = (match l with
         | '/' :: r => [([c], r)]
         | _ => []) ++ (plusSlashAsc l).map (fun pr => (c :: pr.1, pr.2)) := by
  simp [plusSlashAsc, h]

/-- The lazy headword stage: all shorter captures fail, the capture `H`
succeeds, so the search returns its value. -/
theorem findSome?_lazyPlusSplits {α : Type} (t : List Char) (v : α) :
    ∀ (H : List Char) (f : List Char × List Char → Option α),
      H ≠ [] → (∀ c ∈ H, isDot c = true) →
      (∀ p q, H = p ++ q → p ≠ [] → q ≠ [] → f (p, q ++ t) = none) →
      f (H, t) = some v →
      (lazyPlusSplits (H ++ t)).findSome? f = some v := by
  intro H
  induction H with
  | nil => intro f hne _ _ _; exact absurd rfl hne
  | cons c H' ih =>
    intro f _ hdot hfail hsucc
    have hdc : isDot c = true := hdot c (by simp)
    rw [List.cons_append, lazyPlusSplits_cons c _ hdc]
    cases H' with
    | nil =>
      rw [List.nil_append]
      rw [List.findSome?_cons_of_isSome _ (by rw [hsucc]; rfl)]
      exact hsucc
    | cons d H'' =>
      have hf1 : f ([c], (d :: H'') ++ t) = none :=
        hfail [c] (d :: H'') rfl (by simp) (by simp)
      rw [List.findSome?_cons_of_isNone _ (by rw [hf1]; rfl)]
      rw [List.findSome?_map]
      exact ih _ (by simp) (fun e he => hdot e (by simp [he]))
        (fun p q hpq hp hq => hfail (c :: p) q (by simp [hpq]) (by simp) hq)
        hsucc

/-- The lazy reading stage: when the capture contains no closing bracket,
the first alternative closes at the first `]` and succeeds. -/
theorem findSome?_lazyCloseSplits {α : Type} (u : List Char) (v : α) :
    ∀ (R : List Char) (f : List Char × List Char → Option α),
      (∀ c ∈ R, isDot c = true ∧ c ≠ ']') →
      f (R, u) = some v →
      (lazyCloseSplits (R ++ ']' :: u)).findSome? f = some v := by
  intro R
  induction R with
  | nil =>
    intro f _ hsucc
    rw [List.nil_append, lazyCloseSplits_close]
    rw [List.findSome?_cons_of_isSome _ (by rw [hsucc]; rfl)]
    exact hsucc
  | cons c R' ih =>
    intro f hc hsucc
    have h1 := hc c (by simp)
    rw [List.cons_append, lazyCloseSplits_cons_ne c _ h1.1 h1.2,
      List.findSome?_map]
    exact ih _ (fun e he => hc e (by simp [he])) hsucc

/-- The greedy gloss stage: on input `g ++ "/"` with `g` free of line
terminators, the longest (preferred) split captures all of `g`. -/
theorem getLast?_plusSlashAsc :
    ∀ g : List Char, g ≠ [] → (∀ c ∈ g, isDot c = true) →
      (plusSlashAsc (g ++ ['/'])).getLast? = some (g, []) := by
  intro g
  induction g with
  | nil => intro h _; exact absurd rfl h
  | cons c g' ih =>
    intro _ hdot
    have hdc : isDot c = true := hdot c (by simp)
    rw [List.cons_append, plusSlashAsc_cons c _ hdc]
    cases g' with
    | nil =>
      have hsl : isDot '/' = true := by decide
      rw [List.nil_append]
      rw [plusSlashAsc_cons '/' [] hsl]
      simp [plusSlashAsc]
    | cons d g'' =>
      have ihv := ih (by simp) (fun e he => hdot e (by simp [he]))
      rw [List.getLast?_append, List.getLast?_map, ihv]
      rfl

/-- `\s+` followed by anything fails entirely on a non-space head. -/
theorem findSome?_spacesPlusRests_none {α : Type} {c : Char} (l : List Char)
    (f : List Char → Option α) (h : isSpace c = false) :
    (spacesPlusRests (c :: l)).findSome? f = none := by
  rw [spacesPlusRests_not_space _ h]; rfl

/-- Unfolding equation for `bracketAlts` on an opening bracket. -/
theorem bracketAlts_open (l : List Char) :
    bracketAlts ('[' :: l)
      = (lazyCloseSplits l).map (fun pr => (some pr.1, pr.2))
          ++ [(none, '[' :: l)] := by
  simp [bracketAlts]

/-- The matcher on a well-formed record `H [R] /G1/G2/`: the headword is
the full pre-space token, the reading is the full bracket content, and
the gloss is everything between the first and the final slash. -/
theorem matchRecordAux_wellformed (H R G1 G2 : List Char)
    (hH : H ≠ []) (hHs : ∀ c ∈ H, isSpace c = false)
    (hR : ∀ c ∈ R, isDot c = true ∧ c ≠ ']')
    (hG1 : ∀ c ∈ G1, isDot c = true) (hG2 : ∀ c ∈ G2, isDot c = true) :
    matchRecordAux
        (H ++ ' ' :: '[' :: (R ++ ']' :: ' ' :: '/' :: (G1 ++ '/' :: (G2 ++ ['/']))))
      = some (H, some R, G1 ++ '/' :: G2) := by
  have hbr : isSpace '[' = false := by decide
  have hslash : isSpace '/' = false := by decide
  have hg : (G1 ++ '/' :: G2) ≠ [] := by cases G1 <;> simp
  have hgdot : ∀ c ∈ G1 ++ '/' :: G2, isDot c = true := by
    intro c hc
    rcases List.mem_append.1 hc with h | h
    · exact hG1 c h
    · rcases List.mem_cons.1 h with h | h
      · rw [h]; decide
      · exact hG2 c h
  have h4 : matchTail H (some R) ('/' :: (G1 ++ '/' :: (G2 ++ ['/'])))
      = some (H, some R, G1 ++ '/' :: G2) := by
    simp only [matchTail]
    have heq : G1 ++ '/' :: (G2 ++ ['/']) = (G1 ++ '/' :: G2) ++ ['/'] := by
      simp
    rw [heq, getLast?_plusSlashAsc _ hg hgdot]
    rfl
  have h3 : (spacesStarRests (' ' :: '/' :: (G1 ++ '/' :: (G2 ++ ['/'])))).findSome?
      (fun s4 => matchTail H (some R) s4)
      = some (H, some R, G1 ++ '/' :: G2) := by
    rw [spacesStarRests_single _ hslash,
      List.findSome?_cons_of_isSome _ (by simp [h4])]
    exact h4
  have h2 : (bracketAlts ('[' ::
        (R ++ ']' :: ' ' :: '/' :: (G1 ++ '/' :: (G2 ++ ['/']))))).findSome?
      (fun rd => (spacesStarRests rd.2).findSome? fun s4 => matchTail H rd.1 s4)
      = some (H, some R, G1 ++ '/' :: G2) := by
    rw [bracketAlts_open, List.findSome?_append]
    have hfirst : ((lazyCloseSplits
        (R ++ ']' :: ' ' :: '/' :: (G1 ++ '/' :: (G2 ++ ['/'])))).map
          (fun pr => (some pr.1, pr.2))).findSome?
        (fun rd => (spacesStarRests rd.2).findSome? fun s4 => matchTail H rd.1 s4)
        = some (H, some R, G1 ++ '/' :: G2) := by
      rw [List.findSome?_map]
      exact findSome?_lazyCloseSplits _ _ R _ hR h3
    rw [hfirst]
    rfl
  have h1 : (spacesPlusRests (' ' :: '[' ::
        (R ++ ']' :: ' ' :: '/' :: (G1 ++ '/' :: (G2 ++ ['/']))))).findSome?
      (fun s2 => (bracketAlts s2).findSome? fun rd =>
        (spacesStarRests rd.2).findSome? fun s4 => matchTail H rd.1 s4)
      = some (H, some R, G1 ++ '/' :: G2) := by
    rw [spacesPlusRests_single _ hbr,
      List.findSome?_cons_of_isSome _ (by simp [h2])]
    exact h2
  unfold matchRecordAux
  refine findSome?_lazyPlusSplits _ _ H _ hH
    (fun c hc => isDot_of_not_isSpace c (hHs c hc)) ?_ h1
  intro p q hpq hp hq
  cases q with
  | nil => exact absurd rfl hq
  | cons e q' =>
    have he : isSpace e = false := hHs e (by rw [hpq]; simp)
    rw [List.cons_append]
    exact findSome?_spacesPlusRests_none _ _ he

/-! ### Claim theorems -/

/-- C4: for every well-formed raw record of the shape `H [R] /G1/G2/`
(non-empty headword without whitespace, bracketed reading without `]`,
glosses free of line terminators), the record grammar yields
headword `H`, reading `R`, and the gloss `G1/G2` — the longest run of
characters after the first slash up to but not including the trailing
slash, internal slashes preserved. -/
theorem parse_wellformed_record (H R G1 G2 : String)
    (hH : H ≠ "") (hHs : ∀ c ∈ H.data, isSpace c = false)
    (hR : ∀ c ∈ R.data, isDot c = true ∧ c ≠ ']')
    (hG1 : ∀ c ∈ G1.data, isDot c = true)
    (hG2 : ∀ c ∈ G2.data, isDot c = true) :
    matchRecord (H ++ " [" ++ R ++ "] /" ++ G1 ++ "/" ++ G2 ++ "/")
      = some (H, some R, G1 ++ "/" ++ G2) := by
  have hHd : H.data ≠ [] := by
    intro h0
    apply hH
    cases H
    simp_all
  have d1 : (" [" : String).data = [' ', '['] := rfl
  have d2 : ("] /" : String).data = [']', ' ', '/'] := rfl
  have d3 : ("/" : String).data = ['/'] := rfl
  have hdata : (H ++ " [" ++ R ++ "] /" ++ G1 ++ "/" ++ G2 ++ "/").data
      = H.data ++ ' ' :: '[' :: (R.data ++ ']' :: ' ' :: '/' ::
          (G1.data ++ '/' :: (G2.data ++ ['/']))) := by
    simp [String.data_append, d1, d2, d3]
  unfold matchRecord
  rw [hdata,
    matchRecordAux_wellformed H.data R.data G1.data G2.data hHd hHs hR hG1 hG2]
  have hgl : String.mk (G1.data ++ '/' :: G2.data) = G1 ++ "/" ++ G2 := by
    have : (G1 ++ "/" ++ G2).data = G1.data ++ '/' :: G2.data := by
      simp [String.data_append, d3]
    rw [← this]
  rw [Option.map_some']
  rw [hgl]
  rfl

/-- C2 counterexample: with copy mode active, `copyIndex = -1` and three
entries, the code returns `-1` (the JavaScript `%` keeps the dividend's
sign), not the non-negative modulo `2`; the result lies outside
`[0, 3)`. -/
theorem selected_index_negative_counterexample :
    getSelectedIndex ⟨true, some true, some (-1)⟩ 3 = -1 ∧
    getSelectedIndex ⟨true, some true, some (-1)⟩ 3 < 0 := by
  decide

/-- C2 (amended): when copy mode is active, the copy index is defined
and the entry count is positive, the selection index is the truncated
remainder `Int.tmod copyIndex entryCount`, whose sign follows
`copyIndex`; it is the non-negative modulo in `[0, entryCount)` for
`copyIndex ≥ 0`, and `selectedIndex(true, 5, 3) = 2`. -/
theorem selected_index_tmod (sd : Bool) (i : Int) (n : Nat) (h : 0 < n) :
    getSelectedIndex ⟨sd, some true, some i⟩ n = Int.tmod i n ∧
    (0 ≤ i → 0 ≤ Int.tmod i n ∧ Int.tmod i n < n) ∧
    getSelectedIndex ⟨sd, some true, some 5⟩ 3 = 2 := by
  refine ⟨?_, ?_, ?_⟩
  · show (if n = 0 then (-1 : Int) else Int.tmod i n) = Int.tmod i n
    rw [if_neg (by omega)]
  · intro hi
    exact ⟨Int.tmod_nonneg _ hi, Int.tmod_lt_of_pos i (by exact_mod_cast h)⟩
  · show (if (3 : Nat) = 0 then (-1 : Int) else Int.tmod 5 3) = 2
    decide

/-- Witness for C2's amended theorem at copyIndex 7, entry count 3. -/
theorem selected_index_tmod_witness :
    getSelectedIndex ⟨true, some true, some 7⟩ 3 = Int.tmod 7 3 ∧
    (0 ≤ (7 : Int) → 0 ≤ Int.tmod 7 3 ∧ Int.tmod 7 3 < 3) ∧
    getSelectedIndex ⟨true, some true, some 5⟩ 3 = 2 :=
  selected_index_tmod true 7 3 (by decide)

/-- C3: the selection index is `-1` whenever copy mode is not truthy, or
the copy index is undefined, or the entry count is zero. -/
theorem selected_index_guards (sd : Bool) (cm : Option Bool) (ci : Option Int)
    (n : Nat) (h : cm ≠ some true ∨ ci = none ∨ n = 0) :
    getSelectedIndex ⟨sd, cm, ci⟩ n = -1 := by
  rcases cm with _ | b
  · rfl
  · cases b
    · rfl
    · rcases ci with _ | i
      · rfl
      · rcases h with h | h | h
        · exact absurd rfl h
        · exact Option.noConfusion h
        · show (if n = 0 then (-1 : Int) else Int.tmod i n) = -1
          rw [if_pos h]

/-- Witness for C3 with copy mode explicitly disabled. -/
theorem selected_index_guards_witness :
    getSelectedIndex ⟨true, some false, some 5⟩ 3 = -1 :=
  selected_index_guards true (some false) (some 5) 3 (Or.inl (by decide))

/-- Witness for C4 at the concrete record `H [R] /G1/G2/`. -/
theorem parse_wellformed_record_witness :
    matchRecord ("H" ++ " [" ++ "R" ++ "] /" ++ "G1" ++ "/" ++ "G2" ++ "/")
      = some ("H", some "R", "G1" ++ "/" ++ "G2") :=
  parse_wellformed_record "H" "R" "G1" "G2" (by decide) (by decide)
    (by decide) (by decide) (by decide)

/-- C1 counterexample: in the name-entry pipeline two adjacent records
with different headwords but byte-for-byte equal glosses collapse into a
single display entry, so the collapse does not require headword
equality. -/
theorem names_collapse_despite_different_headwords :
    renderNamesEntries ["A [r] /G/", "B [s] /G/"]
      = [⟨[⟨some "A", "r"⟩, ⟨some "B", "s"⟩], "G"⟩] ∧
    ("A" : String) ≠ "B" := by
  constructor
  · rfl
  · decide

/-- C1 (amended): in the word pipeline a record collapses into the
previous accepted entry iff its parsed headword AND gloss equal that
entry's; in the name pipeline it collapses iff the gloss matches —
headwords are not compared; two adjacent word records with equal glosses
but different headwords produce two separate entries. -/
theorem merge_invariant_amended :
    (∀ (es : List WordDisplayEntry) (rec : String) (reason : Option String)
        (h g : String) (k : Option String),
        matchRecord rec = some (h, k, g) →
        ((wordStep es rec reason).length = es.length ↔
          ∃ prev, es.getLast? = some prev ∧
            prev.kanjiKana = h ∧ prev.definition = g)) ∧
    (∀ (es : List NamesDisplayEntry) (rec : String) (h g : String)
        (k : Option String),
        nameParse rec = some (h, k, g) →
        ((nameStep es rec).length = es.length ↔
          ∃ prev, es.getLast? = some prev ∧ prev.definition = g)) ∧
    renderWordEntries [("仔クジラ [こくじら] /(n) whale calf/", none),
        ("仔鯨 [こくじら] /(n) whale calf/", none)]
      = [⟨"仔クジラ", ["こくじら"], "(n) whale calf", none⟩,
         ⟨"仔鯨", ["こくじら"], "(n) whale calf", none⟩] := by
  refine ⟨?_, ?_, by decide⟩
  · intro es rec reason h g k hm
    simp only [wordStep, hm]
    split
    next prev heq =>
      rw [heq]
      have hne : es ≠ [] := by
        intro h0; rw [h0] at heq; simp at heq
      have hlen : 1 ≤ es.length := by
        cases es
        · exact absurd rfl hne
        · simp
      by_cases hcond : prev.kanjiKana = h ∧ prev.definition = g
      · rw [if_pos hcond]
        constructor
        · intro _
          exact ⟨prev, rfl, hcond.1, hcond.2⟩
        · intro _
          simp only [List.length_append, List.length_dropLast,
            List.length_cons, List.length_nil]
          omega
      · rw [if_neg hcond]
        constructor
        · intro hlen2
          exfalso
          simp [List.length_append] at hlen2
        · rintro ⟨prev', hp, hp1, hp2⟩
          exfalso
          cases Option.some.inj hp
          exact hcond ⟨hp1, hp2⟩
    next heq =>
      rw [heq]
      have he : es = [] := List.getLast?_eq_none_iff.1 heq
      subst he
      simp
  · intro es rec h g k hm
    simp only [nameStep, hm]
    split
    next prev heq =>
      rw [heq]
      have hne : es ≠ [] := by
        intro h0; rw [h0] at heq; simp at heq
      have hlen : 1 ≤ es.length := by
        cases es
        · exact absurd rfl hne
        · simp
      by_cases hcond : prev.definition = g
      · rw [if_pos hcond]
        constructor
        · intro _
          exact ⟨prev, rfl, hcond⟩
        · intro _
          simp only [List.length_append, List.length_dropLast,
            List.length_cons, List.length_nil]
          omega
      · rw [if_neg hcond]
        constructor
        · intro hlen2
          exfalso
          simp [List.length_append] at hlen2
        · rintro ⟨prev', hp, hp2⟩
          exfalso
          cases Option.some.inj hp
          exact hcond hp2
    next heq =>
      rw [heq]
      have he : es = [] := List.getLast?_eq_none_iff.1 heq
      subst he
      simp

/-- Witness for C1's amended theorem on the empty entry list. -/
theorem merge_invariant_amended_witness :
    ((wordStep [] "犬 [いぬ] /dog/" none).length
        = ([] : List WordDisplayEntry).length ↔
      ∃ prev, ([] : List WordDisplayEntry).getLast? = some prev ∧
        prev.kanjiKana = "犬" ∧ prev.definition = "dog") ∧
    ((nameStep [] "犬 [いぬ] /dog/").length
        = ([] : List NamesDisplayEntry).length ↔
      ∃ prev, ([] : List NamesDisplayEntry).getLast? = some prev ∧
        prev.definition = "dog") :=
  ⟨merge_invariant_amended.1 [] "犬 [いぬ] /dog/" none "犬" "dog"
      (some "いぬ") (by decide),
    merge_invariant_amended.2.1 [] "犬 [いぬ] /dog/" "犬" "dog"
      (some "いぬ") (by decide)⟩

/-- C5: the name-entry merge rule — when the previous accepted entry's
gloss equals this record's (possibly fallback-substituted) gloss the new
variant is appended to that entry's variant list, otherwise a new
single-variant entry is started; headwords play no role. -/
theorem names_merge_rule :
    (∀ (es : List NamesDisplayEntry) (prev : NamesDisplayEntry)
        (rec h g : String) (k : Option String),
        nameParse rec = some (h, k, g) → es.getLast? = some prev →
        prev.definition = g →
        nameStep es rec = es.dropLast
          ++ [⟨prev.names ++ [nameVariantOf h k], prev.definition⟩]) ∧
    (∀ (es : List NamesDisplayEntry) (prev : NamesDisplayEntry)
        (rec h g : String) (k : Option String),
        nameParse rec = some (h, k, g) → es.getLast? = some prev →
        prev.definition ≠ g →
        nameStep es rec = es ++ [⟨[nameVariantOf h k], g⟩]) ∧
    (∀ (rec h g : String) (k : Option String),
        nameParse rec = some (h, k, g) →
        nameStep [] rec = [⟨[nameVariantOf h k], g⟩]) := by
  refine ⟨?_, ?_, ?_⟩
  · intro es prev rec h g k hm hl hd
    simp only [nameStep, hm, hl]
    rw [if_pos hd]
  · intro es prev rec h g k hm hl hd
    simp only [nameStep, hm, hl]
    rw [if_neg hd]
  · intro rec h g k hm
    simp only [nameStep, hm]
    rfl

/-- Witness for C5's merge branch at a concrete previous entry. -/
theorem names_merge_rule_witness :
    nameStep [⟨[⟨none, "x"⟩], "G"⟩] "B [s] /G/"
      = ([⟨[⟨none, "x"⟩], "G"⟩] : List NamesDisplayEntry).dropLast
          ++ [⟨(⟨[⟨none, "x"⟩], "G"⟩ : NamesDisplayEntry).names
                ++ [nameVariantOf "B" (some "s")],
              (⟨[⟨none, "x"⟩], "G"⟩ : NamesDisplayEntry).definition⟩] :=
  names_merge_rule.1 [⟨[⟨none, "x"⟩], "G"⟩] ⟨[⟨none, "x"⟩], "G"⟩
    "B [s] /G/" "B" "G" (some "s") (by decide) (by decide) (by decide)

/-- C6 counterexample: on the claim's record (single trailing slash) the
outer gloss field contains only one slash, so the embedded re-match
fails and the outer triple is kept: the entry carries the *outer*
reading あかぐみふぉー and the outer gloss, not the embedded pair with
gloss `Akagumi Four (h)/`. -/
theorem names_fallback_counterexample :
    matchRecord "あか組４ [あかぐみフォー] /Akagumi Four (h)" = none ∧
    renderNamesEntries
        ["あか組４ [あかぐみふぉー] /あか組４ [あかぐみフォー] /Akagumi Four (h)/"]
      = [⟨[⟨some "あか組４", "あかぐみふぉー"⟩],
          "あか組４ [あかぐみフォー] /Akagumi Four (h)"⟩] := by
  constructor
  · rfl
  · rfl

/-- C6 (amended): whenever the parsed gloss field itself matches the
grammar the outer triple is replaced by the embedded one, and the
substitution is applied exactly once — the embedded triple is used as
is; on the doubled-trailing-slash record from the source comment the
entry carries the embedded headword/reading pair and the gloss
`Akagumi Four (h)` (the trailing slash is excluded by the capture). -/
theorem names_fallback_amended :
    (∀ (rec h g h2 g2 : String) (k k2 : Option String),
        matchRecord rec = some (h, k, g) →
        matchRecord g = some (h2, k2, g2) →
        nameParse rec = some (h2, k2, g2)) ∧
    nameParse
        "あか組４ [あかぐみふぉー] /あか組４ [あかぐみフォー] /Akagumi Four (h)//"
      = some ("あか組４", some "あかぐみフォー", "Akagumi Four (h)") ∧
    renderNamesEntries
        ["あか組４ [あかぐみふぉー] /あか組４ [あかぐみフォー] /Akagumi Four (h)//"]
      = [⟨[⟨some "あか組４", "あかぐみフォー"⟩], "Akagumi Four (h)"⟩] := by
  refine ⟨?_, rfl, rfl⟩
  intro rec h g h2 g2 k k2 hm hg
  simp only [nameParse, hm, hg]

/-- Witness for C6's amended fallback rule on the doubled-slash record. -/
theorem names_fallback_amended_witness :
    nameParse
        "あか組４ [あかぐみふぉー] /あか組４ [あかぐみフォー] /Akagumi Four (h)//"
      = some ("あか組４", some "あかぐみフォー", "Akagumi Four (h)") :=
  names_fallback_amended.1
    "あか組４ [あかぐみふぉー] /あか組４ [あかぐみフォー] /Akagumi Four (h)//"
    "あか組４" "あか組４ [あかぐみフォー] /Akagumi Four (h)/"
    "あか組４" "Akagumi Four (h)"
    (some "あかぐみふぉー") (some "あかぐみフォー")
    (by decide) (by decide)

/-- C7: an unparseable record is silently skipped in both pipelines —
the output equals the output for the same sequence with that record
removed, and processing continues. -/
theorem unparseable_skipped :
    (∀ (pre suf : List (String × Option String)) (bad : String)
        (reason : Option String), matchRecord bad = none →
        renderWordEntries (pre ++ (bad, reason) :: suf)
          = renderWordEntries (pre ++ suf)) ∧
    (∀ (pre suf : List String) (bad : String), matchRecord bad = none →
        renderNamesEntries (pre ++ bad :: suf)
          = renderNamesEntries (pre ++ suf)) := by
  constructor
  · intro pre suf bad reason hm
    show (pre ++ (bad, reason) :: suf).foldl _ [] = (pre ++ suf).foldl _ []
    rw [List.foldl_append, List.foldl_append, List.foldl_cons]
    congr 1
    show wordStep _ bad reason = _
    simp [wordStep, hm]
  · intro pre suf bad hm
    show (pre ++ bad :: suf).foldl _ [] = (pre ++ suf).foldl _ []
    rw [List.foldl_append, List.foldl_append, List.foldl_cons]
    congr 1
    show nameStep _ bad = _
    simp [nameStep, nameParse, hm]

/-- Witness for C7 with the unparseable record `xyz`. -/
theorem unparseable_skipped_witness :
    renderWordEntries ([("犬 [いぬ] /dog/", none)] ++ ("xyz", none) :: [])
      = renderWordEntries ([("犬 [いぬ] /dog/", none)] ++ []) :=
  unparseable_skipped.1 [("犬 [いぬ] /dog/", none)] [] "xyz" none (by decide)

/-- C8: merging only ever touches the last accepted entry — a grouping
step leaves every earlier entry (the `dropLast` part) unchanged — and
for records [A, A, B, A] with the two leading A records sharing headword
and gloss both pipelines produce exactly 3 entries, never 2. -/
theorem merge_frame_property :
    (∀ (es : List WordDisplayEntry) (rec : String) (reason : Option String),
        (wordStep es rec reason).take (es.length - 1) = es.dropLast) ∧
    (∀ (es : List NamesDisplayEntry) (rec : String),
        (nameStep es rec).take (es.length - 1) = es.dropLast) ∧
    renderWordEntries [("犬 [いぬ] /dog/", none), ("犬 [イヌ] /dog/", none),
        ("猫 [ねこ] /cat/", none), ("犬 [いぬ] /dog/", none)]
      = [⟨"犬", ["いぬ", "イヌ"], "dog", none⟩, ⟨"猫", ["ねこ"], "cat", none⟩,
         ⟨"犬", ["いぬ"], "dog", none⟩] ∧
    (renderNamesEntries ["犬 [いぬ] /dog/", "犬 [イヌ] /dog/",
        "猫 [ねこ] /cat/", "犬 [いぬ] /dog/"]).length = 3 := by
  refine ⟨?_, ?_, by decide, by decide⟩
  · intro es rec reason
    cases hm : matchRecord rec with
    | none =>
      simp [wordStep, hm, List.dropLast_eq_take]
    | some m =>
      obtain ⟨h, k, g⟩ := m
      simp only [wordStep, hm]
      split
      next prev heq =>
        by_cases hcond : prev.kanjiKana = h ∧ prev.definition = g
        · rw [if_pos hcond]
          exact List.take_left' (List.length_dropLast es)
        · rw [if_neg hcond, List.take_append_eq_append_take]
          have h0 : es.length - 1 - es.length = 0 := by omega
          rw [h0]
          simp [List.dropLast_eq_take]
      next heq =>
        rw [List.take_append_eq_append_take]
        have h0 : es.length - 1 - es.length = 0 := by omega
        rw [h0]
        simp [List.dropLast_eq_take]
  · intro es rec
    cases hm : nameParse rec with
    | none =>
      simp [nameStep, hm, List.dropLast_eq_take]
    | some m =>
      obtain ⟨h, k, g⟩ := m
      simp only [nameStep, hm]
      split
      next prev heq =>
        by_cases hcond : prev.definition = g
        · rw [if_pos hcond]
          exact List.take_left' (List.length_dropLast es)
        · rw [if_neg hcond, List.take_append_eq_append_take]
          have h0 : es.length - 1 - es.length = 0 := by omega
          rw [h0]
          simp [List.dropLast_eq_take]
      next heq =>
        rw [List.take_append_eq_append_take]
        have h0 : es.length - 1 - es.length = 0 := by omega
        rw [h0]
        simp [List.dropLast_eq_take]

/-- C9: the name table carries the multi-column marker iff the grouped
entry count exceeds 4 — true at 5 grouped entries, false at 4 grouped
entries, including when 5 raw records group into only 4 entries. -/
theorem multicol_threshold :
    (∀ data : List String,
        (renderNamesTable data).multicol = true
          ↔ 4 < (renderNamesTable data).entries.length) ∧
    (renderNamesTable ["a /1/", "b /2/", "c /3/", "d /4/",
        "e /5/"]).entries.length = 5 ∧
    (renderNamesTable ["a /1/", "b /2/", "c /3/", "d /4/",
        "e /5/"]).multicol = true ∧
    (renderNamesTable ["a /1/", "b /2/", "c /3/", "d /4/"]).multicol = false ∧
    (renderNamesTable ["a /1/", "b /2/", "c /3/", "d /4/",
        "e /4/"]).multicol = false ∧
    (renderNamesTable ["a /1/", "b /2/", "c /3/", "d /4/",
        "e /4/"]).entries.length = 4 := by
  refine ⟨?_, by decide, by decide, by decide, by decide, by decide⟩
  intro data
  simp [renderNamesTable]

/-- C10: a present-but-empty bracketed reading is treated exactly like
an absent one: the parser captures the empty string for `H [] /G/`, both
word-pipeline branches append no reading, and the name variant is built
with the headword unset and the reading equal to the headword field. -/
theorem empty_reading_as_absent :
    (∀ (es : List WordDisplayEntry) (rec1 rec2 h g : String)
        (reason : Option String),
        matchRecord rec1 = some (h, some "", g) →
        matchRecord rec2 = some (h, none, g) →
        wordStep es rec1 reason = wordStep es rec2 reason) ∧
    (∀ (es : List NamesDisplayEntry) (rec1 rec2 h g : String),
        nameParse rec1 = some (h, some "", g) →
        nameParse rec2 = some (h, none, g) →
        nameStep es rec1 = nameStep es rec2) ∧
    (∀ ks : List String, pushKana ks (some "") = ks ∧ pushKana ks none = ks) ∧
    (∀ h : String, nameVariantOf h (some "") = ⟨none, h⟩ ∧
        nameVariantOf h none = ⟨none, h⟩) ∧
    matchRecord "H [] /G/" = some ("H", some "", "G") ∧
    matchRecord "H /G/" = some ("H", none, "G") ∧
    renderWordEntries [("H [] /G/", none)]
      = renderWordEntries [("H /G/", none)] ∧
    renderNamesEntries ["H [] /G/"] = [⟨[⟨none, "H"⟩], "G"⟩] ∧
    renderNamesEntries ["H [] /G/"] = renderNamesEntries ["H /G/"] := by
  have hp : ∀ ks : List String, pushKana ks (some "") = pushKana ks none := by
    intro ks; simp [pushKana]
  have hv : ∀ h : String, nameVariantOf h (some "") = nameVariantOf h none := by
    intro h; simp [nameVariantOf]
  refine ⟨?_, ?_, ?_, ?_, by decide, by decide, by decide, by decide, by decide⟩
  · intro es rec1 rec2 h g reason h1 h2
    simp only [wordStep, h1, h2, hp]
  · intro es rec1 rec2 h g h1 h2
    simp only [nameStep, h1, h2, hv]
  · intro ks
    constructor <;> simp [pushKana]
  · intro h
    constructor <;> simp [nameVariantOf]

/-- Witness for C10's general word-pipeline conjunct on the records
`H [] /G/` and `H /G/`. -/
theorem empty_reading_as_absent_witness :
    wordStep [] "H [] /G/" none = wordStep [] "H /G/" none :=
  empty_reading_as_absent.1 [] "H [] /G/" "H /G/" "H" "G" none
    (by decide) (by decide)
